import Mathlib

/-!
Verification of the IPv6 channel filtering utility (save_ipv6_channels.py).

Strings are modelled as lists of characters. The in-memory structure built by
the program (a Python insertion-ordered dict from category label to channel
list) is modelled as an association list that preserves insertion order.
All functions are translated directly from the source.
-/

set_option maxRecDepth 20000

namespace SaveIPv6

/-- A parsed channel: a (name, url) pair, as built by read_result_file. -/
structure Channel where
  name : List Char
  url : List Char
deriving DecidableEq

/-- The catalog: an insertion-ordered association list from category label to
channel sequence, modelling the Python (default)dict. -/
abbrev Catalog := List (List Char × List Channel)

/-- Whitespace characters removed by Python str.strip: exactly the characters
for which Python str.isspace is true (the ASCII control whitespace 09-0D and
1C-1F, the space, NEL, NBSP, OGHAM SPACE MARK, the Unicode spaces 2000-200A,
the line and paragraph separators, NARROW NBSP, MMSP and IDEOGRAPHIC SPACE). -/
def isSpace (c : Char) : Bool :=
  (0x09 ≤ c.toNat && c.toNat ≤ 0x0d) || (0x1c ≤ c.toNat && c.toNat ≤ 0x1f)
    || c = ' ' || c = '\x85' || c = '\xa0' || c = '\u1680'
    || (0x2000 ≤ c.toNat && c.toNat ≤ 0x200a) || c = '\u2028' || c = '\u2029'
    || c = '\u202f' || c = '\u205f' || c = '\u3000'

/-- Drop leading whitespace. -/
def trimL (s : List Char) : List Char := s.dropWhile isSpace

/-- Drop trailing whitespace. -/
def trimR (s : List Char) : List Char := (s.reverse.dropWhile isSpace).reverse

/-- Python line.strip(): drop leading and trailing whitespace. -/
def strip (s : List Char) : List Char := trimR (trimL s)

/-- Does pat occur at the very start of s? -/
def matchesAt : List Char → List Char → Bool
  | [], _ => true
  | _ :: _, [] => false
  | p :: ps, c :: cs => p = c && matchesAt ps cs

/-- Python "pat in s": does pat occur anywhere inside s? -/
def containsSub (pat : List Char) : List Char → Bool
  | [] => matchesAt pat []
  | c :: cs => matchesAt pat (c :: cs) || containsSub pat cs

/-- Python s.endswith(pat). -/
def endsWithL (pat s : List Char) : Bool := matchesAt pat.reverse s.reverse

/-- Worker for removeAll; the fuel argument (an upper bound on the length of
the string still to scan) only serves structural termination. -/
def removeAllAux (pat : List Char) : List Char → Nat → List Char
  | s, 0 => s
  | [], _ + 1 => []
  | c :: cs, fuel + 1 =>
    if pat.length ≠ 0 ∧ matchesAt pat (c :: cs) = true then
      removeAllAux pat ((c :: cs).drop pat.length) fuel
    else
      c :: removeAllAux pat cs fuel

/-- Python s.replace(pat, ""): remove every occurrence of pat, scanning left
to right (used only with a nonempty pat). -/
def removeAll (pat s : List Char) : List Char := removeAllAux pat s s.length

theorem removeAllAux_fuel (pat : List Char) :
    ∀ (f g : Nat) (s : List Char), s.length ≤ f → s.length ≤ g →
      removeAllAux pat s f = removeAllAux pat s g := by
  intro f
  induction f with
  | zero =>
    intro g s hf _
    have hs : s = [] := List.eq_nil_of_length_eq_zero (Nat.le_zero.mp hf)
    subst hs
    cases g <;> rfl
  | succ f ih =>
    intro g s hf hg
    cases s with
    | nil => cases g <;> rfl
    | cons c cs =>
      cases g with
      | zero => simp at hg
      | succ g =>
        simp only [removeAllAux]
        by_cases h : pat.length ≠ 0 ∧ matchesAt pat (c :: cs) = true
        · simp only [if_pos h]
          apply ih
          · simp only [List.length_drop, List.length_cons] at *
            omega
          · simp only [List.length_drop, List.length_cons] at *
            omega
        · simp only [if_neg h]
          have := ih g cs (by simp at hf; omega) (by simp at hg; omega)
          rw [this]

@[simp] theorem removeAll_nil (pat : List Char) : removeAll pat [] = [] := rfl

theorem removeAll_cons (pat : List Char) (c : Char) (cs : List Char) :
    removeAll pat (c :: cs) =
      if pat.length ≠ 0 ∧ matchesAt pat (c :: cs) = true then
        removeAll pat ((c :: cs).drop pat.length)
      else c :: removeAll pat cs := by
  show removeAllAux pat (c :: cs) (cs.length + 1) = _
  simp only [removeAllAux]
  by_cases h : pat.length ≠ 0 ∧ matchesAt pat (c :: cs) = true
  · simp only [if_pos h]
    apply removeAllAux_fuel
    · simp only [List.length_drop, List.length_cons]
      omega
    · rfl
  · simp only [if_neg h]
    rfl

/-- The category marker suffix ",#genre#". -/
def genreMark : List Char := ",#genre#".data

/-- Python line.split(",", 1) when at least one comma is present: split at the
first comma; further commas stay in the second component. -/
def splitFirstComma : List Char → Option (List Char × List Char)
  | [] => none
  | c :: cs =>
    if c = ',' then some ([], cs)
    else
      match splitFirstComma cs with
      | some (n, u) => some (c :: n, u)
      | none => none

/-- defaultdict(list) append: append ch to the sequence of category cat,
creating the key at the end of the catalog on first use. -/
def addChannel (cat : List Char) (ch : Channel) : Catalog → Catalog
  | [] => [(cat, [ch])]
  | (k, chs) :: rest =>
    if k = cat then (k, chs ++ [ch]) :: rest
    else (k, chs) :: addChannel cat ch rest

/-- One iteration of the read_result_file loop: process one raw line, updating
the pair (catalog, current category). -/
def parseLine (st : Catalog × List Char) (rawLine : List Char) : Catalog × List Char :=
  let line := strip rawLine
  if line = [] then st
  else if endsWithL genreMark line then (st.1, removeAll genreMark line)
  else
    match splitFirstComma line with
    | some (n, u) => (addChannel st.2 ⟨n, u⟩ st.1, st.2)
    | none => st

/-- The read_result_file loop over a list of lines, starting from the empty
catalog and the implicit empty-string current category. -/
def parseLines (lines : List (List Char)) : Catalog :=
  (lines.foldl parseLine ([], [])).1

/-- Worker for splitLines; the fuel argument (an upper bound on the length of
the content still to scan) only serves structural termination. -/
def splitLinesAux : List Char → Nat → List (List Char)
  | s, 0 => [s]
  | [], _ + 1 => [[]]
  | c :: cs, fuel + 1 =>
    if c = '\n' then [] :: splitLinesAux cs fuel
    else if c = '\r' then
      match cs with
      | '\n' :: cs2 => [] :: splitLinesAux cs2 fuel
      | _ => [] :: splitLinesAux cs fuel
    else
      match splitLinesAux cs fuel with
      | [] => [[c]]
      | l :: ls => (c :: l) :: ls

/-- Split file content into lines, modelling universal-newlines text reading:
a line ends at a newline, at a lone carriage return, or at a carriage return
directly followed by a newline (a single break); the terminator is not kept
(Python strips it from each iterated line anyway). -/
def splitLines (s : List Char) : List (List Char) := splitLinesAux s s.length

theorem splitLines_cons_nl (cs : List Char) :
    splitLines ('\n' :: cs) = [] :: splitLines cs := by
  show splitLinesAux ('\n' :: cs) (cs.length + 1) = _
  simp only [splitLinesAux, if_pos rfl]
  rfl

theorem splitLines_cons_other {c : Char} (cs : List Char) (h1 : ¬c = '\n') (h2 : ¬c = '\r') :
    splitLines (c :: cs) =
      match splitLines cs with
      | [] => [[c]]
      | l :: ls => (c :: l) :: ls := by
  show splitLinesAux (c :: cs) (cs.length + 1) = _
  simp only [splitLinesAux, if_neg h1, if_neg h2]
  rfl

/-- read_result_file: none models a missing input file, in which case the
function prints a notice and returns the empty catalog. -/
def read_result_file : Option (List Char) → Catalog
  | none => []
  | some content => parseLines (splitLines content)

/-- Characters matched by the regex character class [0-9a-fA-F:]. -/
def isHexColon (c : Char) : Bool :=
  c.isDigit || ('a' ≤ c && c ≤ 'f') || ('A' ≤ c && c ≤ 'F') || c = ':'

/-- After at least one class character has been consumed: can the regex
engine reach a closing bracket through class characters only? -/
def closeAfterRun : List Char → Bool
  | [] => false
  | c :: cs => c = ']' || (isHexColon c && closeAfterRun cs)

/-- Does a nonempty run of class characters followed by a closing bracket
start here? -/
def hexRunThenClose : List Char → Bool
  | [] => false
  | c :: cs => isHexColon c && closeAfterRun cs

/-- re.search for the bracket pattern: an opening bracket somewhere, followed
by a nonempty run of hex digits and colons, followed by a closing bracket. -/
def hasBracketIPv6 : List Char → Bool
  | [] => false
  | c :: cs => (c = '[' && hexRunThenClose cs) || hasBracketIPv6 cs

/-- is_ipv6_url: the five-pattern heuristic classifier. -/
def is_ipv6_url (url : List Char) : Bool :=
  hasBracketIPv6 url || containsSub "2409:8087:".data url
    || containsSub "2001:".data url || containsSub "::1".data url
    || containsSub "fe80:".data url

/-- filter_ipv6_channels: keep only channels whose url passes the classifier;
a category key is created (at the end) only when one of its channels passes. -/
def filter_ipv6_channels (channels : Catalog) : Catalog :=
  channels.foldl
    (fun acc p =>
      p.2.foldl (fun acc2 ch => if is_ipv6_url ch.url then addChannel p.1 ch acc2 else acc2) acc)
    []

/-- The text of one channel line: name, comma, url (no newline). -/
def chLine (ch : Channel) : List Char := ch.name ++ ',' :: ch.url

/-- save_channels_to_file: the full written file content. Empty categories are
skipped; a blank separator line precedes every emitted category except the
first; each category contributes its header line and one line per channel. -/
def save_channels_to_file (channels : Catalog) : List Char :=
  (channels.foldl
    (fun (st : List Char × Bool) p =>
      if p.2.isEmpty then st
      else
        ((if st.2 then st.1 else st.1 ++ ['\n']) ++ p.1 ++ genreMark ++ '\n' ::
          (p.2.map (fun ch => chLine ch ++ ['\n'])).flatten,
         false))
    ([], true)).1

/-- One step of the seen_names loop of remove_duplicates_keep_best: a dict
update that keeps the stored position of an existing key and replaces its
value only when the new url is strictly shorter. -/
def updSeen (seen : List (List Char × Channel)) (ch : Channel) : List (List Char × Channel) :=
  match seen with
  | [] => [(ch.name, ch)]
  | (k, e) :: rest =>
    if k = ch.name then
      (if ch.url.length < e.url.length then (k, ch) :: rest else (k, e) :: rest)
    else (k, e) :: updSeen rest ch

/-- Per-category body of remove_duplicates_keep_best: list(seen_names.values())
after folding the channel list through the dict update. -/
def dedupChannels (chs : List Channel) : List Channel :=
  (chs.foldl updSeen []).map Prod.snd

/-- remove_duplicates_keep_best over the whole catalog. -/
def remove_duplicates_keep_best (channels : Catalog) : Catalog :=
  channels.map (fun p => (p.1, dedupChannels p.2))

/-- main: the whole run as a function from the optional input file content to
the optional output file content (none = no output file is written). -/
def main (file : Option (List Char)) : Option (List Char) :=
  let channels := read_result_file file
  if channels = [] then none
  else
    let ipv6 := filter_ipv6_channels channels
    if ipv6 = [] then none
    else some (save_channels_to_file (remove_duplicates_keep_best ipv6))

/-! ### Basic string lemmas -/

theorem matchesAt_iff {p s : List Char} : matchesAt p s = true ↔ ∃ r, s = p ++ r := by
  induction p generalizing s with
  | nil => simp [matchesAt]
  | cons a ps ih =>
    cases s with
    | nil =>
      simp only [matchesAt, List.cons_append, Bool.false_eq_true, false_iff]
      rintro ⟨r, h⟩
      exact List.noConfusion h
    | cons c cs =>
      simp only [matchesAt, Bool.and_eq_true, decide_eq_true_eq, ih, List.cons_append]
      constructor
      · rintro ⟨rfl, r, rfl⟩
        exact ⟨r, rfl⟩
      · rintro ⟨r, h⟩
        injection h with h1 h2
        exact ⟨h1.symm, r, h2⟩

theorem containsSub_iff {p s : List Char} : containsSub p s = true ↔ ∃ a b, s = a ++ p ++ b := by
  induction s with
  | nil =>
    simp only [containsSub, matchesAt_iff]
    constructor
    · rintro ⟨r, h⟩
      rcases List.append_eq_nil.mp h.symm with ⟨rfl, rfl⟩
      exact ⟨[], [], rfl⟩
    · rintro ⟨a, b, h⟩
      rcases List.append_eq_nil.mp h.symm with ⟨h2, rfl⟩
      rcases List.append_eq_nil.mp h2 with ⟨rfl, rfl⟩
      exact ⟨[], rfl⟩
  | cons c cs ih =>
    simp only [containsSub, Bool.or_eq_true, matchesAt_iff, ih]
    constructor
    · rintro (⟨r, h⟩ | ⟨a, b, h⟩)
      · exact ⟨[], r, by simp [h]⟩
      · exact ⟨c :: a, b, by simp [h]⟩
    · rintro ⟨a, b, h⟩
      cases a with
      | nil =>
        exact Or.inl ⟨b, by simpa using h⟩
      | cons d a2 =>
        rw [List.cons_append, List.cons_append] at h
        injection h with h1 h2
        exact Or.inr ⟨a2, b, by simp [h2]⟩

theorem endsWithL_iff {p s : List Char} : endsWithL p s = true ↔ ∃ a, s = a ++ p := by
  unfold endsWithL
  rw [matchesAt_iff]
  constructor
  · rintro ⟨r, h⟩
    refine ⟨r.reverse, ?_⟩
    have := congrArg List.reverse h
    simpa using this
  · rintro ⟨a, rfl⟩
    exact ⟨a.reverse, by simp⟩

theorem splitFirstComma_some {s n u : List Char} :
    splitFirstComma s = some (n, u) ↔ (s = n ++ ',' :: u ∧ ',' ∉ n) := by
  induction s generalizing n u with
  | nil =>
    constructor
    · intro h
      exact Option.noConfusion h
    · rintro ⟨h, -⟩
      exact absurd h.symm (by simp)
  | cons c cs ih =>
    simp only [splitFirstComma]
    by_cases hc : c = ','
    · subst hc
      rw [if_pos rfl]
      constructor
      · intro h
        injection h with h1
        injection h1 with h2 h3
        subst h2
        subst h3
        exact ⟨rfl, by simp⟩
      · rintro ⟨h, hn⟩
        cases n with
        | nil =>
          injection h with _ h2
          rw [h2]
        | cons d n2 =>
          injection h with h1 _
          refine absurd ?_ hn
          rw [← h1]
          exact List.mem_cons_self _ _
    · rw [if_neg hc]
      cases hsp : splitFirstComma cs with
      | none =>
        constructor
        · intro h
          exact Option.noConfusion h
        · rintro ⟨h, hn⟩
          exfalso
          cases n with
          | nil =>
            injection h with h1 _
            exact hc h1
          | cons d n2 =>
            injection h with h1 h2
            subst h1
            have := (@ih n2 u).mpr ⟨h2, fun hm => hn (List.mem_cons_of_mem _ hm)⟩
            rw [hsp] at this
            exact Option.noConfusion this
      | some p =>
        obtain ⟨n2, u2⟩ := p
        have hcs := (@ih n2 u2).mp hsp
        simp only [Option.some_inj, Prod.mk.injEq]
        constructor
        · rintro ⟨rfl, rfl⟩
          refine ⟨by simp [hcs.1], ?_⟩
          intro hm
          rcases List.mem_cons.mp hm with h1 | h2
          · exact hc h1.symm
          · exact hcs.2 h2
        · rintro ⟨h, hn⟩
          cases n with
          | nil =>
            injection h with h1 _
            exact absurd h1 hc
          | cons d n2' =>
            injection h with h1 h2
            subst h1
            have := (@ih n2' u).mpr ⟨h2, fun hm => hn (List.mem_cons_of_mem _ hm)⟩
            rw [hsp] at this
            injection this with h3
            injection h3 with h4 h5
            exact ⟨by rw [h4], h5⟩

theorem splitFirstComma_none {s : List Char} :
    splitFirstComma s = none ↔ ',' ∉ s := by
  induction s with
  | nil => simp [splitFirstComma]
  | cons c cs ih =>
    simp only [splitFirstComma]
    by_cases hc : c = ','
    · subst hc
      simp
    · rw [if_neg hc]
      cases hsp : splitFirstComma cs with
      | none =>
        simp only [true_iff]
        intro hm
        rcases List.mem_cons.mp hm with h1 | h2
        · exact hc h1.symm
        · exact ih.mp hsp h2
      | some p =>
        obtain ⟨n2, u2⟩ := p
        constructor
        · intro h
          exact Option.noConfusion h
        · intro hm
          exfalso
          have hin : ',' ∈ cs := by
            rcases (splitFirstComma_some.mp hsp) with ⟨h, -⟩
            rw [h]
            simp
          exact hm (List.mem_cons_of_mem c hin)

/-! ### Whitespace and strip lemmas -/

/-- True when the first character, if any, is not whitespace. -/
def noLeadWs : List Char → Bool
  | [] => true
  | c :: _ => !isSpace c

/-- True when the last character, if any, is not whitespace. -/
def noTrailWs (l : List Char) : Bool := noLeadWs l.reverse

theorem noLeadWs_dropWhile (l : List Char) : noLeadWs (l.dropWhile isSpace) = true := by
  induction l with
  | nil => rfl
  | cons c cs ih =>
    rw [List.dropWhile_cons]
    by_cases h : isSpace c = true
    · rw [if_pos h]
      exact ih
    · rw [if_neg h]
      simp [noLeadWs, h]

theorem trimL_eq_self {l : List Char} (h : noLeadWs l = true) : trimL l = l := by
  cases l with
  | nil => rfl
  | cons c cs =>
    simp only [noLeadWs, Bool.not_eq_true'] at h
    simp [trimL, List.dropWhile_cons, h]

theorem trimR_eq_self {l : List Char} (h : noTrailWs l = true) : trimR l = l := by
  unfold trimR
  have hd : l.reverse.dropWhile isSpace = l.reverse := by
    have := @trimL_eq_self l.reverse h
    simpa [trimL] using this
  rw [hd, List.reverse_reverse]

theorem strip_eq_self {l : List Char} (h1 : noLeadWs l = true) (h2 : noTrailWs l = true) :
    strip l = l := by
  unfold strip
  rw [show trimL l = l from trimL_eq_self h1]
  exact trimR_eq_self h2

theorem noLeadWs_of_append {a b : List Char} (h : noLeadWs (a ++ b) = true) (ha : a ≠ []) :
    noLeadWs a = true := by
  cases a with
  | nil => exact absurd rfl ha
  | cons c cs => exact h

theorem trimR_append_eq (l : List Char) : ∃ w, l = trimR l ++ w := by
  refine ⟨(l.reverse.takeWhile isSpace).reverse, ?_⟩
  unfold trimR
  have h1 : l.reverse.takeWhile isSpace ++ l.reverse.dropWhile isSpace = l.reverse :=
    List.takeWhile_append_dropWhile isSpace l.reverse
  have h2 := congrArg List.reverse h1
  rw [List.reverse_append, List.reverse_reverse] at h2
  exact h2.symm

theorem noLeadWs_trimR {l : List Char} (h : noLeadWs l = true) : noLeadWs (trimR l) = true := by
  obtain ⟨w, hw⟩ := trimR_append_eq l
  by_cases he : trimR l = []
  · rw [he]
    rfl
  · exact noLeadWs_of_append (hw ▸ h) he

theorem noLeadWs_trimL (l : List Char) : noLeadWs (trimL l) = true :=
  noLeadWs_dropWhile l

theorem noLeadWs_strip (l : List Char) : noLeadWs (strip l) = true :=
  noLeadWs_trimR (noLeadWs_trimL l)

theorem noTrailWs_strip (l : List Char) : noTrailWs (strip l) = true := by
  unfold noTrailWs strip trimR
  rw [List.reverse_reverse]
  exact noLeadWs_dropWhile _

theorem trimL_ws_append {pre x : List Char} (h : ∀ c ∈ pre, isSpace c = true) :
    trimL (pre ++ x) = trimL x := by
  induction pre with
  | nil => rfl
  | cons c cs ih =>
    rw [List.cons_append]
    unfold trimL
    rw [List.dropWhile_cons, if_pos (h c (List.mem_cons_self c cs))]
    exact ih (fun d hd => h d (List.mem_cons_of_mem c hd))

theorem trimL_append_cases (l z : List Char) :
    trimL (l ++ z) = if trimL l = [] then trimL z else trimL l ++ z := by
  induction l with
  | nil => simp [trimL]
  | cons c cs ih =>
    rw [List.cons_append]
    unfold trimL at *
    rw [List.dropWhile_cons, List.dropWhile_cons]
    by_cases h : isSpace c = true
    · rw [if_pos h, if_pos h]
      exact ih
    · rw [if_neg h, if_neg h]
      simp

theorem trimR_ws_append {y post : List Char} (h : ∀ c ∈ post, isSpace c = true) :
    trimR (y ++ post) = trimR y := by
  unfold trimR
  rw [List.reverse_append]
  rw [show (post.reverse ++ y.reverse).dropWhile isSpace = y.reverse.dropWhile isSpace from
    trimL_ws_append (fun c hc => h c (List.mem_reverse.mp hc))]

theorem strip_pad {pre l post : List Char} (hpre : ∀ c ∈ pre, isSpace c = true)
    (hpost : ∀ c ∈ post, isSpace c = true) :
    strip (pre ++ l ++ post) = strip l := by
  unfold strip
  rw [List.append_assoc, trimL_ws_append hpre, trimL_append_cases l post]
  by_cases h : trimL l = []
  · rw [if_pos h, h]
    have : trimL post = [] := by
      have := @trimL_ws_append post ([] : List Char) hpost
      simpa using this
    rw [this]
  · rw [if_neg h]
    exact trimR_ws_append hpost

/-! ### Catalog accessor lemmas -/

/-- The category labels of a catalog, in order. -/
def keysOf (c : Catalog) : List (List Char) := c.map Prod.fst

/-- The channel sequence recorded for a category (empty when absent). -/
def catChannels (cat : List Char) : Catalog → List Channel
  | [] => []
  | (k, chs) :: rest => if k = cat then chs else catChannels cat rest

theorem catChannels_addChannel (k k2 : List Char) (ch : Channel) (c : Catalog) :
    catChannels k (addChannel k2 ch c) =
      if k = k2 then catChannels k c ++ [ch] else catChannels k c := by
  induction c with
  | nil =>
    by_cases h : k = k2
    · subst h
      simp [addChannel, catChannels]
    · have h2 : ¬k2 = k := fun hh => h hh.symm
      simp [addChannel, catChannels, h, h2]
  | cons p rest ih =>
    obtain ⟨k0, chs0⟩ := p
    by_cases h0 : k0 = k2
    · rw [show addChannel k2 ch ((k0, chs0) :: rest) = (k0, chs0 ++ [ch]) :: rest from by
        simp [addChannel, h0]]
      by_cases hk : k0 = k
      · have hkk : k = k2 := hk ▸ h0
        simp [catChannels, hk, hkk]
      · by_cases hkk : k = k2
        · exact absurd (h0.trans hkk.symm) hk
        · simp [catChannels, hk, hkk]
    · rw [show addChannel k2 ch ((k0, chs0) :: rest) = (k0, chs0) :: addChannel k2 ch rest from by
        simp [addChannel, h0]]
      by_cases hk : k0 = k
      · have hkk : ¬k = k2 := fun hh => h0 (hk.trans hh)
        simp [catChannels, hk, hkk]
      · simp only [catChannels, if_neg hk]
        exact ih

theorem keysOf_addChannel (k : List Char) (ch : Channel) (c : Catalog) :
    keysOf (addChannel k ch c) = if k ∈ keysOf c then keysOf c else keysOf c ++ [k] := by
  induction c with
  | nil => simp [addChannel, keysOf]
  | cons p rest ih =>
    obtain ⟨k0, chs0⟩ := p
    by_cases h0 : k0 = k
    · subst h0
      simp [addChannel, keysOf]
    · have hkk0 : ¬k = k0 := fun hh => h0 hh.symm
      rw [show addChannel k ch ((k0, chs0) :: rest) = (k0, chs0) :: addChannel k ch rest from by
        simp [addChannel, h0]]
      have hmem : k ∈ keysOf ((k0, chs0) :: rest) ↔ k ∈ keysOf rest := by
        simp only [keysOf, List.map_cons, List.mem_cons]
        exact or_iff_right hkk0
      by_cases hm : k ∈ keysOf rest
      · rw [if_pos (hmem.mpr hm)]
        show keysOf ((k0, chs0) :: addChannel k ch rest) = _
        simp only [keysOf, List.map_cons] at *
        rw [ih, if_pos hm]
      · rw [if_neg (fun hh => hm (hmem.mp hh))]
        show keysOf ((k0, chs0) :: addChannel k ch rest) = _
        simp only [keysOf, List.map_cons] at *
        rw [ih, if_neg hm]
        rfl

theorem addChannel_fresh {k : List Char} {ch : Channel} {c : Catalog} (h : k ∉ keysOf c) :
    addChannel k ch c = c ++ [(k, [ch])] := by
  induction c with
  | nil => rfl
  | cons p rest ih =>
    obtain ⟨k0, chs0⟩ := p
    simp only [keysOf, List.map_cons, List.mem_cons, not_or] at h
    obtain ⟨hk0, hrest⟩ := h
    have h0 : ¬k0 = k := fun hh => hk0 hh.symm
    simp only [addChannel, if_neg h0, List.cons_append]
    exact congrArg _ (ih (by simpa [keysOf] using hrest))

theorem addChannel_last {k : List Char} {ch : Channel} {c : Catalog} (chs : List Channel)
    (h : k ∉ keysOf c) :
    addChannel k ch (c ++ [(k, chs)]) = c ++ [(k, chs ++ [ch])] := by
  induction c with
  | nil => simp [addChannel]
  | cons p rest ih =>
    obtain ⟨k0, chs0⟩ := p
    simp only [keysOf, List.map_cons, List.mem_cons, not_or] at h
    obtain ⟨hk0, hrest⟩ := h
    have h0 : ¬k0 = k := fun hh => hk0 hh.symm
    simp only [List.cons_append, addChannel, if_neg h0]
    exact congrArg _ (ih (by simpa [keysOf] using hrest))

theorem keysOf_nodup_addChannel {k : List Char} {ch : Channel} {c : Catalog}
    (h : (keysOf c).Nodup) : (keysOf (addChannel k ch c)).Nodup := by
  rw [keysOf_addChannel]
  by_cases hm : k ∈ keysOf c
  · rw [if_pos hm]
    exact h
  · rw [if_neg hm]
    simp [List.nodup_append, h, hm]

/-! ### Case lemmas for parseLine -/

theorem endsWithL_genre_nil : endsWithL genreMark [] = false := by decide

theorem parseLine_blank {st : Catalog × List Char} {l : List Char} (h : strip l = []) :
    parseLine st l = st := by
  simp [parseLine, h]

theorem parseLine_genre {st : Catalog × List Char} {l : List Char}
    (h : endsWithL genreMark (strip l) = true) :
    parseLine st l = (st.1, removeAll genreMark (strip l)) := by
  have hne : strip l ≠ [] := by
    intro hnil
    rw [hnil, endsWithL_genre_nil] at h
    exact Bool.noConfusion h
  simp [parseLine, hne, h]

theorem parseLine_channel {st : Catalog × List Char} {l n u : List Char}
    (h0 : strip l ≠ []) (h1 : endsWithL genreMark (strip l) = false)
    (h2 : splitFirstComma (strip l) = some (n, u)) :
    parseLine st l = (addChannel st.2 ⟨n, u⟩ st.1, st.2) := by
  simp [parseLine, h0, h1, h2]

theorem parseLine_skip {st : Catalog × List Char} {l : List Char}
    (h0 : strip l ≠ []) (h1 : endsWithL genreMark (strip l) = false)
    (h2 : splitFirstComma (strip l) = none) :
    parseLine st l = st := by
  simp [parseLine, h0, h1, h2]

/-! ### Classifier lemmas -/

theorem closeAfterRun_iff {s : List Char} :
    closeAfterRun s = true ↔ ∃ m b, s = m ++ ']' :: b ∧ ∀ c ∈ m, isHexColon c = true := by
  induction s with
  | nil =>
    simp only [closeAfterRun, Bool.false_eq_true, false_iff]
    rintro ⟨m, b, h, -⟩
    exact absurd h.symm (by simp)
  | cons c cs ih =>
    simp only [closeAfterRun, Bool.or_eq_true, Bool.and_eq_true, decide_eq_true_eq, ih]
    constructor
    · rintro (rfl | ⟨hc, m, b, rfl, hm⟩)
      · exact ⟨[], cs, rfl, by simp⟩
      · refine ⟨c :: m, b, rfl, ?_⟩
        intro d hd
        rcases List.mem_cons.mp hd with rfl | hd2
        · exact hc
        · exact hm d hd2
    · rintro ⟨m, b, h, hm⟩
      cases m with
      | nil =>
        injection h with h1 _
        exact Or.inl h1
      | cons d m2 =>
        injection h with h1 h2
        subst h1
        exact Or.inr ⟨hm c (List.mem_cons_self c m2), m2, b, h2, fun e he => hm e (List.mem_cons_of_mem c he)⟩

theorem hexRunThenClose_iff {s : List Char} :
    hexRunThenClose s = true ↔
      ∃ m b, s = m ++ ']' :: b ∧ m ≠ [] ∧ ∀ c ∈ m, isHexColon c = true := by
  cases s with
  | nil =>
    simp only [hexRunThenClose, Bool.false_eq_true, false_iff]
    rintro ⟨m, b, h, -, -⟩
    exact absurd h.symm (by simp)
  | cons c cs =>
    simp only [hexRunThenClose, Bool.and_eq_true, closeAfterRun_iff]
    constructor
    · rintro ⟨hc, m, b, rfl, hm⟩
      refine ⟨c :: m, b, rfl, by simp, ?_⟩
      intro d hd
      rcases List.mem_cons.mp hd with rfl | hd2
      · exact hc
      · exact hm d hd2
    · rintro ⟨m, b, h, hne, hm⟩
      cases m with
      | nil => exact absurd rfl hne
      | cons d m2 =>
        injection h with h1 h2
        subst h1
        exact ⟨hm c (List.mem_cons_self c m2), m2, b, h2, fun e he => hm e (List.mem_cons_of_mem c he)⟩

theorem hasBracketIPv6_iff {s : List Char} :
    hasBracketIPv6 s = true ↔
      ∃ a m b, s = a ++ '[' :: (m ++ ']' :: b) ∧ m ≠ [] ∧ ∀ c ∈ m, isHexColon c = true := by
  induction s with
  | nil =>
    simp only [hasBracketIPv6, Bool.false_eq_true, false_iff]
    rintro ⟨a, m, b, h, -, -⟩
    exact absurd h.symm (by simp)
  | cons c cs ih =>
    simp only [hasBracketIPv6, Bool.or_eq_true, Bool.and_eq_true, decide_eq_true_eq,
      hexRunThenClose_iff, ih]
    constructor
    · rintro (⟨rfl, m, b, rfl, hne, hm⟩ | ⟨a, m, b, rfl, hne, hm⟩)
      · exact ⟨[], m, b, rfl, hne, hm⟩
      · exact ⟨c :: a, m, b, rfl, hne, hm⟩
    · rintro ⟨a, m, b, h, hne, hm⟩
      cases a with
      | nil =>
        injection h with h1 h2
        exact Or.inl ⟨h1, m, b, h2, hne, hm⟩
      | cons d a2 =>
        injection h with h1 h2
        exact Or.inr ⟨a2, m, b, h2, hne, hm⟩

/-- CLAIM C4: for every URL string (including the empty string), the classifier
returns true iff at least one of the five rules matches: a nonempty run of hex
digits and colons enclosed in square brackets, or one of the four literal
substrings "2409:8087:", "2001:", "::1", "fe80:"; the three concrete example
evaluations of the spec hold, and the empty string is classified false. -/
theorem C4_classifier :
    (∀ url : List Char,
      is_ipv6_url url = true ↔
        ((∃ a m b, url = a ++ '[' :: (m ++ ']' :: b) ∧ m ≠ [] ∧ ∀ c ∈ m, isHexColon c = true) ∨
         (∃ a b, url = a ++ "2409:8087:".data ++ b) ∨
         (∃ a b, url = a ++ "2001:".data ++ b) ∨
         (∃ a b, url = a ++ "::1".data ++ b) ∨
         (∃ a b, url = a ++ "fe80:".data ++ b))) ∧
    is_ipv6_url "http://[2409:8087:1001::5]/live".data = true ∧
    is_ipv6_url "http://192.168.1.1:8080/live".data = false ∧
    is_ipv6_url "http://example.com/2001:path".data = true ∧
    is_ipv6_url [] = false := by
  refine ⟨?_, by decide, by decide, by decide, by decide⟩
  intro url
  unfold is_ipv6_url
  simp only [Bool.or_eq_true, hasBracketIPv6_iff, containsSub_iff, or_assoc]

/-- CLAIM C2, counterexample: on the line ",#genre#,#genre#" (which, stripped,
ends with ",#genre#"), the parser sets the current category to the empty
string, because Python str.replace removes every occurrence of the marker; the
claim as stated predicts the category ",#genre#" (only the trailing marker
removed). -/
theorem C2_counterexample :
    endsWithL genreMark (strip ",#genre#,#genre#".data) = true ∧
    (parseLine ([], []) ",#genre#,#genre#".data).2 = [] ∧
    (parseLine ([], []) ",#genre#,#genre#".data).2 ≠ ",#genre#".data := by decide

/-- CLAIM C2, amended: for every input line that (after stripping) ends with
",#genre#", the parser starts a new current category whose name is the
stripped line with every occurrence of ",#genre#" removed (Python str.replace
semantics), not merely the trailing occurrence, and the line contributes no
channel to any category. -/
theorem C2_amended (st : Catalog × List Char) (line : List Char)
    (h : endsWithL genreMark (strip line) = true) :
    parseLine st line = (st.1, removeAll genreMark (strip line)) :=
  parseLine_genre h

/-- Witness for C2_amended at the concrete line "News,#genre#". -/
theorem C2_amended_witness :
    parseLine ([], []) "News,#genre#".data
      = ([], removeAll genreMark (strip "News,#genre#".data)) ∧
    removeAll genreMark (strip "News,#genre#".data) = "News".data :=
  ⟨C2_amended ([], []) "News,#genre#".data (by decide), by decide⟩

/-- CLAIM C6: a stripped nonblank line not ending in ",#genre#" that contains
a comma is split at the first comma into name and url (further commas kept in
the url), and the pair is appended at the end of the current category; a line
with no comma leaves the state unchanged. -/
theorem C6_channel_lines (st : Catalog × List Char) (line : List Char)
    (hne : strip line ≠ []) (hng : endsWithL genreMark (strip line) = false) :
    (∀ n u, strip line = n ++ ',' :: u → ',' ∉ n →
      parseLine st line = (addChannel st.2 ⟨n, u⟩ st.1, st.2) ∧
      catChannels st.2 (parseLine st line).1 = catChannels st.2 st.1 ++ [⟨n, u⟩]) ∧
    (',' ∉ strip line → parseLine st line = st) := by
  constructor
  · intro n u hsplit hn
    have hs : splitFirstComma (strip line) = some (n, u) := splitFirstComma_some.mpr ⟨hsplit, hn⟩
    have hp := @parseLine_channel st _ _ _ hne hng hs
    refine ⟨hp, ?_⟩
    rw [hp]
    show catChannels st.2 (addChannel st.2 ⟨n, u⟩ st.1) = _
    rw [catChannels_addChannel, if_pos rfl]
  · intro hn
    exact parseLine_skip hne hng (splitFirstComma_none.mpr hn)

/-- Witness for C6_channel_lines at a concrete line with two commas. -/
theorem C6_channel_lines_witness :
    parseLine ([], "News".data) "CCTV1,http://a/b,c".data
      = (addChannel "News".data ⟨"CCTV1".data, "http://a/b,c".data⟩ [], "News".data) ∧
    parseLine ([], "News".data) "nocomma".data = ([], "News".data) :=
  ⟨((C6_channel_lines ([], "News".data) "CCTV1,http://a/b,c".data (by decide) (by decide)).1
      "CCTV1".data "http://a/b,c".data (by decide) (by decide)).1,
    (C6_channel_lines ([], "News".data) "nocomma".data (by decide) (by decide)).2 (by decide)⟩

/-- CLAIM C7: a missing input file parses to the empty catalog and the run
writes no output; an empty catalog after parsing, or an empty result of the
IPv6 filter, also terminate the run with no output written. -/
theorem C7_early_exit :
    (read_result_file none = [] ∧ main none = none) ∧
    (∀ f, read_result_file f = [] → main f = none) ∧
    (∀ f, filter_ipv6_channels (read_result_file f) = [] → main f = none) := by
  refine ⟨⟨rfl, rfl⟩, ?_, ?_⟩
  · intro f h
    simp [main, h]
  · intro f h
    by_cases h0 : read_result_file f = []
    · simp [main, h0]
    · simp [main, h0, h]

/-- Witness for C7_early_exit: a file with no parsable channel line, and a
file whose only channel is not IPv6. -/
theorem C7_early_exit_witness :
    main (some "no commas here".data) = none ∧
    main (some "News,#genre#\nCCTV1,http://192.168.1.1/live".data) = none :=
  ⟨C7_early_exit.2.1 (some "no commas here".data) (by decide),
    C7_early_exit.2.2 (some "News,#genre#\nCCTV1,http://192.168.1.1/live".data) (by decide)⟩

/-! ### Deduplicator machinery -/

/-- Spec-side: the distinct keys of a list, in order of first occurrence. -/
def firstOccur (l : List (List Char)) : List (List Char) :=
  l.foldl (fun ks k => if k ∈ ks then ks else ks ++ [k]) []

/-- Spec-side: keep the challenger only when its url is strictly shorter in
characters; an exact tie keeps the existing channel. -/
def keepShorter (e ch : Channel) : Channel :=
  if ch.url.length < e.url.length then ch else e

/-- Spec-side: fold keepShorter over a list of challengers. -/
def pick (acc : Channel) (l : List Channel) : Channel := l.foldl keepShorter acc

/-- Spec-side: the channel that survives for name n: the first occurrence,
then each later occurrence replaces it iff its url is strictly shorter. -/
def theBest (n : List Char) (chs : List Channel) : Channel :=
  match chs.filter (fun ch => decide (ch.name = n)) with
  | [] => ⟨n, []⟩
  | c :: rest => pick c rest

/-- Spec-side: the distinct channel names of a list, in first-occurrence order. -/
def firstKeys (chs : List Channel) : List (List Char) :=
  firstOccur (chs.map Channel.name)

theorem mem_firstOccur_foldl (l : List (List Char)) :
    ∀ (ks : List (List Char)) (x : List Char),
      (x ∈ l.foldl (fun ks k => if k ∈ ks then ks else ks ++ [k]) ks) ↔ (x ∈ ks ∨ x ∈ l) := by
  induction l with
  | nil => simp
  | cons k rest ih =>
    intro ks x
    rw [List.foldl_cons, ih]
    by_cases hk : k ∈ ks
    · rw [if_pos hk]
      constructor
      · rintro (h | h)
        · exact Or.inl h
        · exact Or.inr (List.mem_cons_of_mem k h)
      · rintro (h | h)
        · exact Or.inl h
        · rcases List.mem_cons.mp h with rfl | h2
          · exact Or.inl hk
          · exact Or.inr h2
    · rw [if_neg hk]
      simp only [List.mem_append, List.mem_singleton, List.mem_cons]
      tauto

theorem nodup_firstOccur_foldl (l : List (List Char)) :
    ∀ ks : List (List Char), ks.Nodup →
      (l.foldl (fun ks k => if k ∈ ks then ks else ks ++ [k]) ks).Nodup := by
  induction l with
  | nil => exact fun ks h => h
  | cons k rest ih =>
    intro ks hks
    rw [List.foldl_cons]
    by_cases hk : k ∈ ks
    · rw [if_pos hk]
      exact ih ks hks
    · rw [if_neg hk]
      exact ih _ (by simp [List.nodup_append, hks, hk])

theorem mem_firstOccur {l : List (List Char)} {x : List Char} :
    x ∈ firstOccur l ↔ x ∈ l := by
  unfold firstOccur
  rw [mem_firstOccur_foldl]
  simp

theorem nodup_firstOccur (l : List (List Char)) : (firstOccur l).Nodup :=
  nodup_firstOccur_foldl l [] List.nodup_nil

theorem firstOccur_append_one (l : List (List Char)) (x : List Char) :
    firstOccur (l ++ [x]) =
      if x ∈ firstOccur l then firstOccur l else firstOccur l ++ [x] := by
  unfold firstOccur
  rw [List.foldl_append]
  rfl

theorem pick_append (acc : Channel) (l : List Channel) (x : Channel) :
    pick acc (l ++ [x]) = keepShorter (pick acc l) x := by
  unfold pick
  rw [List.foldl_append]
  rfl

theorem pick_name {n : List Char} {acc : Channel} {l : List Channel}
    (hacc : acc.name = n) (hl : ∀ x ∈ l, x.name = n) : (pick acc l).name = n := by
  induction l generalizing acc with
  | nil => exact hacc
  | cons x rest ih =>
    show (pick (keepShorter acc x) rest).name = n
    apply ih
    · unfold keepShorter
      by_cases h : x.url.length < acc.url.length
      · rw [if_pos h]
        exact hl x (List.mem_cons_self x rest)
      · rw [if_neg h]
        exact hacc
    · exact fun y hy => hl y (List.mem_cons_of_mem x hy)

theorem theBest_name {n : List Char} (chs : List Channel) : (theBest n chs).name = n := by
  unfold theBest
  cases hf : chs.filter (fun ch => decide (ch.name = n)) with
  | nil => rfl
  | cons c rest =>
    have hmem : ∀ x ∈ chs.filter (fun ch => decide (ch.name = n)), x.name = n := by
      intro x hx
      have := (List.mem_filter.mp hx).2
      simpa using this
    apply pick_name
    · exact hmem c (hf ▸ List.mem_cons_self c rest)
    · exact fun y hy => hmem y (hf ▸ List.mem_cons_of_mem c hy)

theorem theBest_append_ne {n : List Char} {ch : Channel} (chs : List Channel)
    (h : ¬ch.name = n) : theBest n (chs ++ [ch]) = theBest n chs := by
  unfold theBest
  rw [List.filter_append]
  rw [show List.filter (fun ch => decide (ch.name = n)) [ch] = [] from by simp [h]]
  rw [List.append_nil]

theorem theBest_append_fresh {ch : Channel} {chs : List Channel}
    (h : ch.name ∉ chs.map Channel.name) : theBest ch.name (chs ++ [ch]) = ch := by
  unfold theBest
  rw [List.filter_append]
  rw [show List.filter (fun x => decide (x.name = ch.name)) chs = [] from by
    rw [List.filter_eq_nil_iff]
    intro a ha
    simp only [decide_eq_true_eq]
    intro hn
    exact h (hn ▸ List.mem_map_of_mem Channel.name ha)]
  simp [pick]

theorem theBest_append_seen {n : List Char} {ch : Channel} {chs : List Channel}
    (hn : ch.name = n) (hpresent : n ∈ chs.map Channel.name) :
    theBest n (chs ++ [ch]) = keepShorter (theBest n chs) ch := by
  unfold theBest
  rw [List.filter_append]
  rw [show List.filter (fun x => decide (x.name = n)) [ch] = [ch] from by simp [hn]]
  cases hf : chs.filter (fun x => decide (x.name = n)) with
  | nil =>
    exfalso
    rcases List.mem_map.mp hpresent with ⟨x, hx, hxn⟩
    have : x ∈ chs.filter (fun x => decide (x.name = n)) :=
      List.mem_filter.mpr ⟨hx, by simp [hxn]⟩
    rw [hf] at this
    exact List.not_mem_nil x this
  | cons c rest =>
    rw [List.cons_append]
    exact pick_append c rest ch

theorem updSeen_fresh {seen : List (List Char × Channel)} {ch : Channel}
    (h : ch.name ∉ seen.map Prod.fst) : updSeen seen ch = seen ++ [(ch.name, ch)] := by
  induction seen with
  | nil => rfl
  | cons p rest ih =>
    obtain ⟨k, e⟩ := p
    simp only [List.map_cons, List.mem_cons, not_or] at h
    obtain ⟨hk, hrest⟩ := h
    have hk2 : ¬k = ch.name := fun hh => hk hh.symm
    simp only [updSeen, if_neg hk2, List.cons_append]
    exact congrArg _ (ih hrest)

theorem updSeen_mapped {ks : List (List Char)} {ch : Channel} (f : List Char → Channel)
    (hnd : ks.Nodup) (hmem : ch.name ∈ ks) :
    updSeen (ks.map (fun n => (n, f n))) ch =
      ks.map (fun n => if n = ch.name then (n, keepShorter (f n) ch) else (n, f n)) := by
  induction ks with
  | nil => exact absurd hmem (List.not_mem_nil ch.name)
  | cons k rest ih =>
    rw [List.map_cons, List.map_cons]
    by_cases hk : k = ch.name
    · have hnotin : k ∉ rest := (List.nodup_cons.mp hnd).1
      have htail :
          List.map (fun n => if n = ch.name then (n, keepShorter (f n) ch) else (n, f n)) rest
            = List.map (fun n => (n, f n)) rest := by
        apply List.map_congr_left
        intro n hn
        have hne : ¬n = ch.name := by
          rintro rfl
          rw [hk] at hnotin
          exact hnotin hn
        rw [if_neg hne]
      rw [if_pos hk, htail]
      simp only [updSeen, if_pos hk, keepShorter]
      by_cases hlt : ch.url.length < (f k).url.length
      · rw [if_pos hlt, if_pos hlt]
      · rw [if_neg hlt, if_neg hlt]
    · have hmem2 : ch.name ∈ rest := by
        rcases List.mem_cons.mp hmem with hh | hh
        · exact absurd hh.symm hk
        · exact hh
      simp only [updSeen, if_neg hk]
      exact congrArg _ (ih (List.nodup_cons.mp hnd).2 hmem2)

theorem mem_firstKeys {chs : List Channel} {n : List Char} :
    n ∈ firstKeys chs ↔ n ∈ chs.map Channel.name := by
  unfold firstKeys
  exact mem_firstOccur

theorem seen_spec (chs : List Channel) :
    chs.foldl updSeen [] = (firstKeys chs).map (fun n => (n, theBest n chs)) := by
  induction chs using List.reverseRecOn with
  | nil => rfl
  | append_singleton chs ch ih =>
    rw [List.foldl_append, List.foldl_cons, List.foldl_nil, ih]
    have hkeys : firstKeys (chs ++ [ch]) =
        if ch.name ∈ firstKeys chs then firstKeys chs else firstKeys chs ++ [ch.name] := by
      unfold firstKeys
      rw [List.map_append, List.map_singleton, firstOccur_append_one]
    by_cases hmem : ch.name ∈ firstKeys chs
    · rw [hkeys, if_pos hmem]
      have hnd : (firstKeys chs).Nodup := nodup_firstOccur _
      rw [updSeen_mapped (fun n => theBest n chs) hnd hmem]
      apply List.map_congr_left
      intro n hn
      by_cases hne : n = ch.name
      · subst hne
        rw [if_pos rfl, theBest_append_seen rfl (mem_firstKeys.mp hn)]
      · rw [if_neg hne, theBest_append_ne chs (fun hh => hne hh.symm)]
    · rw [hkeys, if_neg hmem]
      have hfresh : ch.name ∉ (List.map (fun n => (n, theBest n chs)) (firstKeys chs)).map Prod.fst := by
        rw [List.map_map]
        simpa using hmem
      rw [updSeen_fresh hfresh, List.map_append, List.map_singleton]
      congr 1
      · apply List.map_congr_left
        intro n hn
        rw [theBest_append_ne chs (by rintro rfl; exact hmem hn)]
      · rw [theBest_append_fresh (fun hh => hmem (mem_firstKeys.mpr hh))]

theorem dedupChannels_spec (chs : List Channel) :
    dedupChannels chs = (firstKeys chs).map (fun n => theBest n chs) := by
  unfold dedupChannels
  rw [seen_spec, List.map_map]
  rfl

theorem dedupChannels_names (chs : List Channel) :
    (dedupChannels chs).map Channel.name = firstKeys chs := by
  rw [dedupChannels_spec, List.map_map]
  have : (Channel.name ∘ fun n => theBest n chs) = id := by
    funext n
    exact theBest_name chs
  rw [this, List.map_id]

theorem dedupChannels_of_nodup {chs : List Channel}
    (h : (chs.map Channel.name).Nodup) : dedupChannels chs = chs := by
  have hseen : ∀ (l : List Channel), (l.map Channel.name).Nodup →
      l.foldl updSeen [] = l.map (fun ch => (ch.name, ch)) := by
    intro l
    induction l using List.reverseRecOn with
    | nil => intro _; rfl
    | append_singleton l ch ih =>
      intro hnd
      rw [List.map_append, List.map_singleton] at hnd
      have hl := (List.nodup_append.mp hnd).1
      have hfresh : ch.name ∉ l.map Channel.name := by
        have hdisj := (List.nodup_append.mp hnd).2.2
        intro hmem
        exact hdisj hmem (List.mem_singleton_self ch.name)
      rw [List.foldl_append, List.foldl_cons, List.foldl_nil, ih hl]
      rw [updSeen_fresh (by rw [List.map_map]; simpa using hfresh)]
      simp
  unfold dedupChannels
  rw [hseen chs h, List.map_map]
  have hid : (Prod.snd ∘ fun ch : Channel => (ch.name, ch)) = id := rfl
  rw [hid, List.map_id]

/-- CLAIM C3: the deduplicator keeps, per category and per name, the first
occurrence, replaced by a later occurrence exactly when that occurrence has a
strictly shorter url (a tie keeps the existing one); the per-category output
lists the survivor of each distinct name in first-occurrence order, with names
pairwise distinct; and of the two "CCTV1" channels of the spec, the one with
the shorter url "http://b.co/s" is kept. -/
theorem C3_dedup :
    (∀ c : Catalog, remove_duplicates_keep_best c =
        c.map (fun p => (p.1, (firstKeys p.2).map (fun n => theBest n p.2)))) ∧
    (∀ chs : List Channel, (dedupChannels chs).map Channel.name = firstKeys chs ∧
        (firstKeys chs).Nodup) ∧
    dedupChannels [⟨"CCTV1".data, "http://a.com/longpath/stream".data⟩,
        ⟨"CCTV1".data, "http://b.co/s".data⟩]
      = [⟨"CCTV1".data, "http://b.co/s".data⟩] := by
  refine ⟨?_, ?_, by decide⟩
  · intro c
    unfold remove_duplicates_keep_best
    apply List.map_congr_left
    intro p _
    rw [dedupChannels_spec]
  · intro chs
    exact ⟨dedupChannels_names chs, nodup_firstOccur _⟩

/-- CLAIM C8: the deduplicator is idempotent on every catalog. -/
theorem C8_dedup_idempotent (c : Catalog) :
    remove_duplicates_keep_best (remove_duplicates_keep_best c) =
      remove_duplicates_keep_best c := by
  unfold remove_duplicates_keep_best
  rw [List.map_map]
  apply List.map_congr_left
  intro p _
  show (p.1, dedupChannels (dedupChannels p.2)) = (p.1, dedupChannels p.2)
  rw [dedupChannels_of_nodup (by rw [dedupChannels_names]; exact nodup_firstOccur _)]

/-! ### Serializer lemmas -/

/-- The text block written for one (nonempty) category: the header line and
one line per channel, each terminated by a newline. -/
def blockOf (p : List Char × List Channel) : List Char :=
  p.1 ++ genreMark ++ '\n' :: (p.2.map (fun ch => chLine ch ++ ['\n'])).flatten

/-- Spec-side: concatenate blocks with a single blank separator line (one
extra newline) before every block except the first. -/
def joinSep : List (List Char) → List Char
  | [] => []
  | b :: bs => b ++ (bs.map (fun x => '\n' :: x)).flatten

theorem save_foldl_false (c : Catalog) :
    ∀ acc : List Char,
      (c.foldl
        (fun (st : List Char × Bool) p =>
          if p.2.isEmpty then st
          else
            ((if st.2 then st.1 else st.1 ++ ['\n']) ++ p.1 ++ genreMark ++ '\n' ::
              (p.2.map (fun ch => chLine ch ++ ['\n'])).flatten,
             false))
        (acc, false)).1
      = acc ++ ((c.filter (fun p => !p.2.isEmpty)).map (fun p => '\n' :: blockOf p)).flatten := by
  induction c with
  | nil =>
    intro acc
    simp
  | cons p rest ih =>
    intro acc
    rw [List.foldl_cons]
    by_cases hp : p.2.isEmpty
    · rw [if_pos hp]
      rw [ih acc]
      rw [List.filter_cons_of_neg (by simp [hp])]
    · rw [if_neg hp]
      rw [List.filter_cons_of_pos (by simp [hp]), List.map_cons, List.flatten_cons]
      have h2 := ih ((acc ++ ['\n']) ++ p.1 ++ genreMark ++ '\n' ::
        (p.2.map (fun ch => chLine ch ++ ['\n'])).flatten)
      simp only [List.append_assoc, List.cons_append, List.nil_append,
        List.singleton_append] at h2 ⊢
      simpa [blockOf, List.append_assoc] using h2

theorem save_foldl_true (c : Catalog) :
    ∀ acc : List Char,
      (c.foldl
        (fun (st : List Char × Bool) p =>
          if p.2.isEmpty then st
          else
            ((if st.2 then st.1 else st.1 ++ ['\n']) ++ p.1 ++ genreMark ++ '\n' ::
              (p.2.map (fun ch => chLine ch ++ ['\n'])).flatten,
             false))
        (acc, true)).1
      = acc ++ joinSep ((c.filter (fun p => !p.2.isEmpty)).map blockOf) := by
  induction c with
  | nil =>
    intro acc
    simp [joinSep]
  | cons p rest ih =>
    intro acc
    rw [List.foldl_cons]
    by_cases hp : p.2.isEmpty
    · rw [if_pos hp]
      rw [ih acc]
      rw [List.filter_cons_of_neg (by simp [hp])]
    · rw [if_neg hp]
      rw [save_foldl_false rest]
      rw [List.filter_cons_of_pos (by simp [hp])]
      rw [List.map_cons]
      simp [joinSep, blockOf, List.append_assoc, Function.comp_def]

/-- The serializer output equals the nonempty category blocks joined with one
blank separator line before each block except the first. -/
theorem save_channels_eq (c : Catalog) :
    save_channels_to_file c = joinSep ((c.filter (fun p => !p.2.isEmpty)).map blockOf) := by
  unfold save_channels_to_file
  have h := save_foldl_true c []
  simpa using h

theorem notMem_keysOf_addChannel {cat k : List Char} {ch : Channel} {acc : Catalog}
    (h : cat ∉ keysOf acc) (hk : ¬k = cat) : cat ∉ keysOf (addChannel k ch acc) := by
  rw [keysOf_addChannel]
  by_cases hm : k ∈ keysOf acc
  · rw [if_pos hm]
    exact h
  · rw [if_neg hm]
    intro hmem
    rcases List.mem_append.mp hmem with h1 | h1
    · exact h h1
    · exact hk (List.mem_singleton.mp h1).symm

theorem cat_notin_inner_foldl (cat k : List Char) (l : List Channel)
    (hfail : k = cat → ∀ ch ∈ l, is_ipv6_url ch.url = false) :
    ∀ acc : Catalog, cat ∉ keysOf acc →
      cat ∉ keysOf (l.foldl
        (fun acc2 ch => if is_ipv6_url ch.url then addChannel k ch acc2 else acc2) acc) := by
  induction l with
  | nil => exact fun acc h => h
  | cons ch rest ih =>
    intro acc hacc
    rw [List.foldl_cons]
    have hrest : k = cat → ∀ x ∈ rest, is_ipv6_url x.url = false :=
      fun hk x hx => hfail hk x (List.mem_cons_of_mem ch hx)
    by_cases hpass : is_ipv6_url ch.url = true
    · rw [if_pos hpass]
      have hk : ¬k = cat := by
        intro hk
        rw [hfail hk ch (List.mem_cons_self ch rest)] at hpass
        exact Bool.noConfusion hpass
      exact ih hrest _ (notMem_keysOf_addChannel hacc hk)
    · rw [if_neg hpass]
      exact ih hrest acc hacc

theorem cat_notin_filter_foldl (cat : List Char) (channels : Catalog)
    (h : ∀ p ∈ channels, p.1 = cat → ∀ ch ∈ p.2, is_ipv6_url ch.url = false) :
    ∀ acc : Catalog, cat ∉ keysOf acc →
      cat ∉ keysOf (channels.foldl
        (fun acc p =>
          p.2.foldl (fun acc2 ch => if is_ipv6_url ch.url then addChannel p.1 ch acc2 else acc2) acc)
        acc) := by
  induction channels with
  | nil => exact fun acc hacc => hacc
  | cons p rest ih =>
    intro acc hacc
    rw [List.foldl_cons]
    apply ih (fun q hq => h q (List.mem_cons_of_mem p hq))
    exact cat_notin_inner_foldl cat p.1 p.2 (h p (List.mem_cons_self p rest)) acc hacc

theorem keysOf_remove_duplicates (c : Catalog) :
    keysOf (remove_duplicates_keep_best c) = keysOf c := by
  unfold remove_duplicates_keep_best keysOf
  rw [List.map_map]
  rfl

/-- CLAIM C5: the serializer skips every empty category, writes one blank
separator line before each emitted category except the first, emits each
category as its header line followed by one line per channel in order, and
writes nothing after the last channel line (the file output equals the
joinSep of the nonempty category blocks); end to end, a category all of whose
channels fail the IPv6 predicate is a key neither of the filtered catalog nor
of the deduplicated catalog, hence contributes no block to the output file. -/
theorem C5_serializer :
    (∀ c : Catalog, save_channels_to_file c =
        joinSep ((c.filter (fun p => !p.2.isEmpty)).map blockOf)) ∧
    (∀ (channels : Catalog) (cat : List Char),
      (∀ p ∈ channels, p.1 = cat → ∀ ch ∈ p.2, is_ipv6_url ch.url = false) →
      cat ∉ keysOf (filter_ipv6_channels channels) ∧
      cat ∉ keysOf (remove_duplicates_keep_best (filter_ipv6_channels channels))) := by
  refine ⟨save_channels_eq, ?_⟩
  intro channels cat h
  have h1 : cat ∉ keysOf (filter_ipv6_channels channels) := by
    unfold filter_ipv6_channels
    exact cat_notin_filter_foldl cat channels h [] (by simp [keysOf])
  refine ⟨h1, ?_⟩
  rw [keysOf_remove_duplicates]
  exact h1

/-- Witness for C5_serializer: the Sports category of the spec scenario, whose
only channel is IPv4, is absent from the filtered and deduplicated catalogs. -/
theorem C5_serializer_witness :
    "Sports".data ∉ keysOf (filter_ipv6_channels
      [("Sports".data, [⟨"ESPN".data, "http://10.0.0.1/live".data⟩])]) ∧
    "Sports".data ∉ keysOf (remove_duplicates_keep_best (filter_ipv6_channels
      [("Sports".data, [⟨"ESPN".data, "http://10.0.0.1/live".data⟩])])) :=
  C5_serializer.2 [("Sports".data, [⟨"ESPN".data, "http://10.0.0.1/live".data⟩])]
    "Sports".data (by decide)

/-! ### Parser event machinery -/

/-- Spec-side: the (category, channel) events of a parser run: each parsed
channel line paired with the current category it is appended to, in overall
input order. -/
def lineEvents (cur : List Char) : List (List Char) → List (List Char × Channel)
  | [] => []
  | l :: ls =>
    if strip l = [] then lineEvents cur ls
    else if endsWithL genreMark (strip l) then lineEvents (removeAll genreMark (strip l)) ls
    else
      match splitFirstComma (strip l) with
      | some (n, u) => (cur, ⟨n, u⟩) :: lineEvents cur ls
      | none => lineEvents cur ls

theorem parse_foldl_events (lines : List (List Char)) :
    ∀ (cata : Catalog) (cur : List Char),
      (lines.foldl parseLine (cata, cur)).1 =
        (lineEvents cur lines).foldl (fun a e => addChannel e.1 e.2 a) cata := by
  induction lines with
  | nil =>
    intro cata cur
    rfl
  | cons l ls ih =>
    intro cata cur
    rw [List.foldl_cons]
    by_cases h0 : strip l = []
    · rw [parseLine_blank h0]
      rw [show lineEvents cur (l :: ls) = lineEvents cur ls from by simp [lineEvents, h0]]
      exact ih cata cur
    · by_cases h1 : endsWithL genreMark (strip l) = true
      · rw [parseLine_genre h1]
        rw [show lineEvents cur (l :: ls) = lineEvents (removeAll genreMark (strip l)) ls from by
          simp [lineEvents, h0, h1]]
        exact ih cata _
      · have h1f : endsWithL genreMark (strip l) = false := by simpa using h1
        cases hsp : splitFirstComma (strip l) with
        | none =>
          rw [parseLine_skip h0 h1f hsp]
          rw [show lineEvents cur (l :: ls) = lineEvents cur ls from by
            simp [lineEvents, h0, h1, hsp]]
          exact ih cata cur
        | some p =>
          obtain ⟨n, u⟩ := p
          rw [parseLine_channel h0 h1f hsp]
          rw [show lineEvents cur (l :: ls) = (cur, ⟨n, u⟩) :: lineEvents cur ls from by
            simp [lineEvents, h0, h1, hsp]]
          rw [List.foldl_cons]
          exact ih _ cur

theorem foldl_addChannel_catChannels (evs : List (List Char × Channel)) :
    ∀ (cata : Catalog) (k : List Char),
      catChannels k (evs.foldl (fun a e => addChannel e.1 e.2 a) cata) =
        catChannels k cata ++ (evs.filter (fun e => decide (e.1 = k))).map Prod.snd := by
  induction evs with
  | nil =>
    intro cata k
    simp
  | cons e rest ih =>
    intro cata k
    rw [List.foldl_cons, ih]
    by_cases hk : e.1 = k
    · rw [catChannels_addChannel, if_pos hk.symm]
      rw [List.filter_cons_of_pos (by simp [hk]), List.map_cons]
      simp [List.append_assoc]
    · rw [catChannels_addChannel, if_neg (fun hh => hk hh.symm)]
      rw [List.filter_cons_of_neg (by simp [hk])]

theorem foldl_addChannel_keys (evs : List (List Char × Channel)) :
    ∀ cata : Catalog,
      keysOf (evs.foldl (fun a e => addChannel e.1 e.2 a) cata) =
        (evs.map Prod.fst).foldl (fun ks k => if k ∈ ks then ks else ks ++ [k]) (keysOf cata) := by
  induction evs with
  | nil =>
    intro cata
    rfl
  | cons e rest ih =>
    intro cata
    rw [List.foldl_cons, List.map_cons, List.foldl_cons, ih, keysOf_addChannel]

/-- CLAIM C10, counterexample: in the input whose lines are "A,#genre#",
"B,#genre#", "x,u", "A,#genre#", "y,v", the label A first appears (as a marker
line) before B, yet the parsed catalog lists B before A, because a dict entry
is only created when the first channel of that label arrives; so the merged
entry is not positioned at the label's first appearance. -/
theorem C10_counterexample :
    keysOf (parseLines ["A,#genre#".data, "B,#genre#".data, "x,u".data,
        "A,#genre#".data, "y,v".data])
      = ["B".data, "A".data] ∧
    keysOf (parseLines ["A,#genre#".data, "B,#genre#".data, "x,u".data,
        "A,#genre#".data, "y,v".data])
      ≠ ["A".data, "B".data] := by decide

/-- CLAIM C10, amended: the parser never creates a duplicate category entry:
its keys are distinct and appear in order of each label's first parsed channel
line (not necessarily the label's first marker line), and the channel sequence
of every label is the sequence of all channel lines parsed under that label,
in overall input order, merged across all of the label's blocks. -/
theorem C10_amended (lines : List (List Char)) :
    (keysOf (parseLines lines)).Nodup ∧
    keysOf (parseLines lines) = firstOccur ((lineEvents [] lines).map Prod.fst) ∧
    ∀ k, catChannels k (parseLines lines) =
      ((lineEvents [] lines).filter (fun e => decide (e.1 = k))).map Prod.snd := by
  have hfold := parse_foldl_events lines [] []
  unfold parseLines
  rw [hfold]
  refine ⟨?_, ?_, ?_⟩
  · rw [foldl_addChannel_keys]
    exact nodup_firstOccur_foldl _ _ List.nodup_nil
  · rw [foldl_addChannel_keys]
    rfl
  · intro k
    rw [foldl_addChannel_catChannels]
    rfl

/-! ### Whitespace invariant of the parser -/

theorem noTrailWs_of_append_right {a b : List Char} (h : noTrailWs (a ++ b) = true)
    (hb : b ≠ []) : noTrailWs b = true := by
  unfold noTrailWs at *
  rw [List.reverse_append] at h
  exact noLeadWs_of_append h (by simpa using hb)

theorem noLeadWs_of_split {l n u : List Char} (h : strip l = n ++ ',' :: u) :
    noLeadWs n = true := by
  cases n with
  | nil => rfl
  | cons d n2 =>
    have hs := noLeadWs_strip l
    rw [h] at hs
    exact hs

theorem noTrailWs_of_split {l n u : List Char} (h : strip l = n ++ ',' :: u) :
    noTrailWs u = true := by
  cases hu : u with
  | nil => rfl
  | cons d u2 =>
    have hs := noTrailWs_strip l
    rw [h, hu] at hs
    have h1 : noTrailWs ((',' :: d :: u2) : List Char) = true :=
      noTrailWs_of_append_right hs (by simp)
    have h2 : noTrailWs ((d :: u2) : List Char) = true :=
      @noTrailWs_of_append_right [','] (d :: u2) (by simpa using h1) (by simp)
    exact h2

theorem mem_addChannel_channels {k : List Char} {ch : Channel} {q : List Char × List Channel} :
    ∀ c : Catalog, q ∈ addChannel k ch c →
      ∀ x ∈ q.2, (∃ p ∈ c, x ∈ p.2) ∨ x = ch := by
  intro c
  induction c with
  | nil =>
    intro hq x hx
    rcases List.mem_singleton.mp hq with rfl
    rcases List.mem_singleton.mp hx with rfl
    exact Or.inr rfl
  | cons p rest ih =>
    obtain ⟨k0, chs0⟩ := p
    intro hq x hx
    by_cases h0 : k0 = k
    · rw [show addChannel k ch ((k0, chs0) :: rest) = (k0, chs0 ++ [ch]) :: rest from by
        simp [addChannel, h0]] at hq
      rcases List.mem_cons.mp hq with rfl | hq2
      · rcases List.mem_append.mp hx with h | h
        · exact Or.inl ⟨(k0, chs0), List.mem_cons_self _ _, h⟩
        · exact Or.inr (List.mem_singleton.mp h)
      · exact Or.inl ⟨q, List.mem_cons_of_mem _ hq2, hx⟩
    · rw [show addChannel k ch ((k0, chs0) :: rest) = (k0, chs0) :: addChannel k ch rest from by
        simp [addChannel, h0]] at hq
      rcases List.mem_cons.mp hq with rfl | hq2
      · exact Or.inl ⟨(k0, chs0), List.mem_cons_self _ _, hx⟩
      · rcases ih hq2 x hx with ⟨p2, hp2, hxp⟩ | hxc
        · exact Or.inl ⟨p2, List.mem_cons_of_mem _ hp2, hxp⟩
        · exact Or.inr hxc

theorem parse_channels_clean (lines : List (List Char)) :
    ∀ st : Catalog × List Char,
      (∀ p ∈ st.1, ∀ x ∈ p.2, noLeadWs x.name = true ∧ noTrailWs x.url = true) →
      ∀ p ∈ (lines.foldl parseLine st).1, ∀ x ∈ p.2,
        noLeadWs x.name = true ∧ noTrailWs x.url = true := by
  induction lines with
  | nil => exact fun st h => h
  | cons l ls ih =>
    intro st hst
    rw [List.foldl_cons]
    apply ih
    by_cases h0 : strip l = []
    · rw [parseLine_blank h0]
      exact hst
    · by_cases h1 : endsWithL genreMark (strip l) = true
      · rw [parseLine_genre h1]
        exact hst
      · have h1f : endsWithL genreMark (strip l) = false := by simpa using h1
        cases hsp : splitFirstComma (strip l) with
        | none =>
          rw [parseLine_skip h0 h1f hsp]
          exact hst
        | some p =>
          obtain ⟨n, u⟩ := p
          rw [parseLine_channel h0 h1f hsp]
          intro q hq x hx
          obtain ⟨heq, -⟩ := splitFirstComma_some.mp hsp
          rcases mem_addChannel_channels st.1 hq x hx with ⟨p2, hp2, hxp⟩ | rfl
          · exact hst p2 hp2 x hxp
          · exact ⟨noLeadWs_of_split heq, noTrailWs_of_split heq⟩

/-- CLAIM C9: the parser strips surrounding whitespace from every line before
classifying or splitting it: a line step depends only on the stripped line,
padding a line with whitespace on either side does not change its effect, and
every channel in every parsed catalog has a name with no leading whitespace
and a url with no trailing whitespace. -/
theorem C9_whitespace :
    (∀ (st : Catalog × List Char) (l1 l2 : List Char), strip l1 = strip l2 →
        parseLine st l1 = parseLine st l2) ∧
    (∀ (st : Catalog × List Char) (pre l post : List Char),
        (∀ c ∈ pre, isSpace c = true) → (∀ c ∈ post, isSpace c = true) →
        parseLine st (pre ++ l ++ post) = parseLine st l) ∧
    (∀ (lines : List (List Char)) (p : List Char × List Channel), p ∈ parseLines lines →
        ∀ x ∈ p.2, noLeadWs x.name = true ∧ noTrailWs x.url = true) := by
  have hdep : ∀ (st : Catalog × List Char) (l1 l2 : List Char), strip l1 = strip l2 →
      parseLine st l1 = parseLine st l2 := by
    intro st l1 l2 h
    simp only [parseLine, h]
  refine ⟨hdep, ?_, ?_⟩
  · intro st pre l post hpre hpost
    exact hdep st (pre ++ l ++ post) l (strip_pad hpre hpost)
  · intro lines p hp x hx
    exact parse_channels_clean lines ([], []) (by simp) p hp x hx

/-- Witness for C9_whitespace: padding the line "CCTV1,http://x" with spaces
does not change the parse step, and the single parsed channel has a clean
name and url. -/
theorem C9_whitespace_witness :
    parseLine ([], []) ("  CCTV1,http://x ".data) = parseLine ([], []) ("CCTV1,http://x".data) ∧
    (noLeadWs (Channel.mk "CCTV1".data "http://x".data).name = true ∧
      noTrailWs (Channel.mk "CCTV1".data "http://x".data).url = true) :=
  ⟨C9_whitespace.2.1 ([], []) "  ".data "CCTV1,http://x".data " ".data (by decide) (by decide),
    C9_whitespace.2.2 ["CCTV1,http://x".data]
      ([], [Channel.mk "CCTV1".data "http://x".data]) (by decide)
      (Channel.mk "CCTV1".data "http://x".data) (by decide)⟩

/-! ### Round-trip machinery: removing the marker restores the label -/

theorem takeLenAppend : ∀ (a b : List Char), (a ++ b).take a.length = a := by
  intro a b
  induction a with
  | nil => rfl
  | cons c a2 ih =>
    rw [List.cons_append, List.length_cons, List.take_succ_cons, ih]

theorem matchesAt_self (p : List Char) : matchesAt p p = true :=
  matchesAt_iff.mpr ⟨[], (List.append_nil p).symm⟩

theorem genre_no_overlap :
    ∀ k, k < 8 → 0 < k → ¬(genreMark.take (8 - k) = genreMark.drop k) := by decide

theorem genre_clean_of_not_contains {x : List Char} (h : containsSub genreMark x = false) :
    ∀ a t, x = a ++ t → t ≠ [] → matchesAt genreMark (t ++ genreMark) = false := by
  intro a t hx ht
  cases hb : matchesAt genreMark (t ++ genreMark) with
  | false => rfl
  | true =>
    exfalso
    obtain ⟨r, heq⟩ := matchesAt_iff.mp hb
    have h8 : genreMark.length = 8 := rfl
    by_cases hk : 8 ≤ t.length
    · have hsplit : t.take 8 ++ (t.drop 8 ++ genreMark) = genreMark ++ r := by
        rw [← List.append_assoc, List.take_append_drop]
        exact heq
      have hlen : (t.take 8).length = genreMark.length := by
        rw [List.length_take, h8]
        omega
      obtain ⟨h1, -⟩ := List.append_inj hsplit hlen
      have hx2 : x = a ++ genreMark ++ t.drop 8 := by
        rw [hx, ← h1, List.append_assoc, List.take_append_drop]
      have hc : containsSub genreMark x = true := containsSub_iff.mpr ⟨a, t.drop 8, hx2⟩
      rw [h] at hc
      exact Bool.noConfusion hc
    · have heq2 : t ++ genreMark = genreMark.take t.length ++ (genreMark.drop t.length ++ r) := by
        rw [← List.append_assoc, List.take_append_drop]
        exact heq
      have hlen2 : t.length = (genreMark.take t.length).length := by
        rw [List.length_take, h8]
        omega
      obtain ⟨-, h2⟩ := List.append_inj heq2 hlen2
      have hdl : (genreMark.drop t.length).length = 8 - t.length := by
        rw [List.length_drop, h8]
      have h3 : genreMark.take (8 - t.length) = genreMark.drop t.length := by
        have h4 : (genreMark.drop t.length ++ r).take (8 - t.length) = genreMark.drop t.length := by
          rw [← hdl]
          exact takeLenAppend _ _
        rw [← h2] at h4
        exact h4
      exact genre_no_overlap t.length (by omega) (List.length_pos.mpr ht) h3

theorem removeAll_append_of_clean (pat : List Char) (hpat : pat ≠ []) :
    ∀ x : List Char,
      (∀ a t, x = a ++ t → t ≠ [] → matchesAt pat (t ++ pat) = false) →
      removeAll pat (x ++ pat) = x := by
  intro x
  induction x with
  | nil =>
    intro _
    rw [List.nil_append]
    cases pat with
    | nil => exact absurd rfl hpat
    | cons c cs =>
      rw [removeAll_cons]
      rw [if_pos ⟨by simp, matchesAt_self (c :: cs)⟩]
      rw [List.drop_length]
      exact removeAll_nil _
  | cons c x2 ih =>
    intro H
    rw [List.cons_append, removeAll_cons]
    have hm : matchesAt pat (c :: (x2 ++ pat)) = false := by
      have := H [] (c :: x2) rfl (by simp)
      rwa [List.cons_append] at this
    rw [if_neg (by simp [hm])]
    exact congrArg _ (ih (fun a t ha ht => H (c :: a) t (by rw [ha, List.cons_append]) ht))

/-- Appending the marker to a label that does not contain the marker and then
removing all occurrences gives back the label. -/
theorem removeAll_genre_restore {x : List Char} (h : containsSub genreMark x = false) :
    removeAll genreMark (x ++ genreMark) = x :=
  removeAll_append_of_clean genreMark (by decide) x (genre_clean_of_not_contains h)

/-! ### Round-trip machinery: lines of the serialized output -/

theorem splitLines_append_newline {x : List Char} (hxn : '\n' ∉ x) (hxr : '\r' ∉ x) :
    ∀ y, splitLines (x ++ '\n' :: y) = x :: splitLines y := by
  induction x with
  | nil =>
    intro y
    rw [List.nil_append, splitLines_cons_nl]
  | cons c cs ih =>
    intro y
    simp only [List.mem_cons, not_or] at hxn hxr
    obtain ⟨hcn, hcsn⟩ := hxn
    obtain ⟨hcr, hcsr⟩ := hxr
    rw [List.cons_append]
    rw [splitLines_cons_other (cs ++ '\n' :: y) (fun hh => hcn hh.symm) (fun hh => hcr hh.symm)]
    rw [ih hcsn hcsr]

theorem splitLines_channel_block (chs : List Channel)
    (hch : ∀ ch ∈ chs, ('\n' ∉ ch.name ∧ '\r' ∉ ch.name) ∧ ('\n' ∉ ch.url ∧ '\r' ∉ ch.url)) :
    ∀ r, splitLines ((chs.map (fun ch => chLine ch ++ ['\n'])).flatten ++ r)
      = chs.map chLine ++ splitLines r := by
  induction chs with
  | nil =>
    intro r
    simp
  | cons ch rest ih =>
    intro r
    rw [List.map_cons, List.flatten_cons]
    obtain ⟨⟨h1n, h1r⟩, h2n, h2r⟩ := hch ch (List.mem_cons_self ch rest)
    have hnl : '\n' ∉ chLine ch := by
      unfold chLine
      simp only [List.mem_append, List.mem_cons, not_or]
      exact ⟨h1n, by decide, h2n⟩
    have hcr : '\r' ∉ chLine ch := by
      unfold chLine
      simp only [List.mem_append, List.mem_cons, not_or]
      exact ⟨h1r, by decide, h2r⟩
    rw [List.append_assoc, List.append_assoc, List.singleton_append]
    rw [splitLines_append_newline hnl hcr]
    rw [ih (fun x hx => hch x (List.mem_cons_of_mem ch hx)) r]
    rfl

theorem splitLines_blockOf (p : List Char × List Channel)
    (hlabn : '\n' ∉ p.1) (hlabr : '\r' ∉ p.1)
    (hch : ∀ ch ∈ p.2, ('\n' ∉ ch.name ∧ '\r' ∉ ch.name) ∧ ('\n' ∉ ch.url ∧ '\r' ∉ ch.url)) :
    ∀ r, splitLines (blockOf p ++ r) = (p.1 ++ genreMark) :: (p.2.map chLine ++ splitLines r) := by
  intro r
  unfold blockOf
  have hhnl : '\n' ∉ p.1 ++ genreMark := by
    simp only [List.mem_append, not_or]
    exact ⟨hlabn, by decide⟩
  have hhcr : '\r' ∉ p.1 ++ genreMark := by
    simp only [List.mem_append, not_or]
    exact ⟨hlabr, by decide⟩
  rw [List.append_assoc, List.cons_append]
  rw [splitLines_append_newline hhnl hhcr]
  rw [splitLines_channel_block p.2 hch r]

/-- The expected line list for the blocks after the first one: a blank
separator line, the header line, the channel lines, recursively. -/
def restLinesFor : Catalog → List (List Char)
  | [] => [[]]
  | p :: rest => [] :: (p.1 ++ genreMark) :: (p.2.map chLine ++ restLinesFor rest)

theorem splitLines_sepBlocks (c : Catalog)
    (hlab : ∀ p ∈ c, '\n' ∉ p.1 ∧ '\r' ∉ p.1)
    (hch : ∀ p ∈ c, ∀ ch ∈ p.2, ('\n' ∉ ch.name ∧ '\r' ∉ ch.name) ∧ ('\n' ∉ ch.url ∧ '\r' ∉ ch.url)) :
    splitLines (((c.map blockOf).map (fun b => '\n' :: b)).flatten) = restLinesFor c := by
  induction c with
  | nil => rfl
  | cons p rest ih =>
    rw [List.map_cons, List.map_cons, List.flatten_cons]
    show splitLines ('\n' :: (blockOf p ++ ((rest.map blockOf).map (fun b => '\n' :: b)).flatten))
      = restLinesFor (p :: rest)
    rw [splitLines_cons_nl]
    rw [splitLines_blockOf p (hlab p (List.mem_cons_self p rest)).1
      (hlab p (List.mem_cons_self p rest)).2 (hch p (List.mem_cons_self p rest))]
    rw [ih (fun q hq => hlab q (List.mem_cons_of_mem p hq))
      (fun q hq => hch q (List.mem_cons_of_mem p hq))]
    rfl

/-! ### Round-trip machinery: re-parsing the serialized lines -/

theorem parseLine_header (st : Catalog × List Char) (k : List Char)
    (hlead : noLeadWs k = true) (hng : containsSub genreMark k = false) :
    parseLine st (k ++ genreMark) = (st.1, k) := by
  have hstrip : strip (k ++ genreMark) = k ++ genreMark := by
    apply strip_eq_self
    · cases k with
      | nil => decide
      | cons c k2 => exact hlead
    · unfold noTrailWs
      rw [List.reverse_append]
      rw [show genreMark.reverse = '#' :: "erneg#,".data from by decide]
      rfl
  have hends : endsWithL genreMark (strip (k ++ genreMark)) = true := by
    rw [hstrip]
    exact endsWithL_iff.mpr ⟨k, rfl⟩
  rw [parseLine_genre hends, hstrip, removeAll_genre_restore hng]

theorem parseLine_chline (st : Catalog × List Char) (ch : Channel)
    (h1 : noLeadWs ch.name = true) (h2 : noTrailWs ch.url = true) (h3 : ',' ∉ ch.name)
    (h4 : endsWithL genreMark (chLine ch) = false) :
    parseLine st (chLine ch) = (addChannel st.2 ch st.1, st.2) := by
  have hstrip : strip (chLine ch) = chLine ch := by
    apply strip_eq_self
    · unfold chLine
      cases hn : ch.name with
      | nil => rfl
      | cons c n2 =>
        rw [hn] at h1
        exact h1
    · unfold noTrailWs chLine
      rw [List.reverse_append, List.reverse_cons]
      cases hu : ch.url.reverse with
      | nil => rfl
      | cons d u2 =>
        have h2b : noLeadWs (d :: u2) = true := by
          have hh := h2
          unfold noTrailWs at hh
          rw [hu] at hh
          exact hh
        exact h2b
  have hne : strip (chLine ch) ≠ [] := by
    rw [hstrip]
    unfold chLine
    cases ch.name <;> simp
  have hsp : splitFirstComma (strip (chLine ch)) = some (ch.name, ch.url) := by
    rw [hstrip]
    exact splitFirstComma_some.mpr ⟨rfl, h3⟩
  have hng : endsWithL genreMark (strip (chLine ch)) = false := by
    rw [hstrip]
    exact h4
  rw [parseLine_channel hne hng hsp]

theorem parse_chlines (chs : List Channel)
    (hgood : ∀ ch ∈ chs, noLeadWs ch.name = true ∧ noTrailWs ch.url = true ∧
      ',' ∉ ch.name ∧ endsWithL genreMark (chLine ch) = false) :
    ∀ (cata : Catalog) (cur : List Char),
      (chs.map chLine).foldl parseLine (cata, cur)
        = (chs.foldl (fun a ch => addChannel cur ch a) cata, cur) := by
  induction chs with
  | nil =>
    intro cata cur
    rfl
  | cons ch rest ih =>
    intro cata cur
    obtain ⟨h1, h2, h3, h4⟩ := hgood ch (List.mem_cons_self ch rest)
    rw [List.map_cons, List.foldl_cons, List.foldl_cons]
    rw [parseLine_chline (cata, cur) ch h1 h2 h3 h4]
    exact ih (fun x hx => hgood x (List.mem_cons_of_mem ch hx)) _ cur

theorem foldl_addChannel_acc (cur : List Char) :
    ∀ (chs acc : List Channel) (cata : Catalog), cur ∉ keysOf cata →
      chs.foldl (fun a ch => addChannel cur ch a) (cata ++ [(cur, acc)])
        = cata ++ [(cur, acc ++ chs)] := by
  intro chs
  induction chs with
  | nil =>
    intro acc cata _
    simp
  | cons ch rest ih =>
    intro acc cata h
    rw [List.foldl_cons, addChannel_last acc h]
    rw [ih (acc ++ [ch]) cata h]
    simp

theorem foldl_addChannel_start (cur : List Char) (chs : List Channel) (hne : chs ≠ []) :
    ∀ cata : Catalog, cur ∉ keysOf cata →
      chs.foldl (fun a ch => addChannel cur ch a) cata = cata ++ [(cur, chs)] := by
  cases chs with
  | nil => exact absurd rfl hne
  | cons ch rest =>
    intro cata h
    rw [List.foldl_cons, addChannel_fresh h]
    rw [foldl_addChannel_acc cur rest [ch] cata h]
    rfl

theorem parse_restLines (c : Catalog)
    (hkeys : (keysOf c).Nodup)
    (hne : ∀ p ∈ c, p.2 ≠ [])
    (hlab : ∀ p ∈ c, noLeadWs p.1 = true ∧ containsSub genreMark p.1 = false)
    (hch : ∀ p ∈ c, ∀ ch ∈ p.2, noLeadWs ch.name = true ∧ noTrailWs ch.url = true ∧
      ',' ∉ ch.name ∧ endsWithL genreMark (chLine ch) = false) :
    ∀ (cata : Catalog) (cur : List Char), (∀ p ∈ c, p.1 ∉ keysOf cata) →
      ((restLinesFor c).foldl parseLine (cata, cur)).1 = cata ++ c := by
  induction c with
  | nil =>
    intro cata cur _
    simp [restLinesFor, parseLine_blank (by rfl : strip ([] : List Char) = [])]
  | cons p rest ih =>
    intro cata cur hnotin
    rw [show restLinesFor (p :: rest)
        = [] :: (p.1 ++ genreMark) :: (p.2.map chLine ++ restLinesFor rest) from rfl]
    rw [List.foldl_cons, parseLine_blank (by rfl : strip ([] : List Char) = [])]
    rw [List.foldl_cons]
    obtain ⟨hl1, hl2⟩ := hlab p (List.mem_cons_self p rest)
    rw [parseLine_header (cata, cur) p.1 hl1 hl2]
    rw [List.foldl_append]
    rw [parse_chlines p.2 (hch p (List.mem_cons_self p rest)) cata p.1]
    have hp1 : p.1 ∉ keysOf cata := hnotin p (List.mem_cons_self p rest)
    rw [foldl_addChannel_start p.1 p.2 (hne p (List.mem_cons_self p rest)) cata hp1]
    have hkeys2 : (keysOf rest).Nodup := by
      unfold keysOf at hkeys
      rw [List.map_cons] at hkeys
      exact (List.nodup_cons.mp hkeys).2
    have hp1r : p.1 ∉ keysOf rest := by
      unfold keysOf at hkeys ⊢
      rw [List.map_cons] at hkeys
      exact (List.nodup_cons.mp hkeys).1
    have hnotin2 : ∀ q ∈ rest, q.1 ∉ keysOf (cata ++ [(p.1, p.2)]) := by
      intro q hq
      unfold keysOf
      rw [List.map_append, List.map_singleton]
      intro hmem
      rcases List.mem_append.mp hmem with hmm | hmm
      · exact hnotin q (List.mem_cons_of_mem p hq) hmm
      · have hq1 : q.1 = p.1 := List.mem_singleton.mp hmm
        exact hp1r (hq1 ▸ List.mem_map_of_mem Prod.fst hq)
    rw [show ((p.1, p.2) : List Char × List Channel) = p from rfl]
    rw [ih hkeys2 (fun q hq => hne q (List.mem_cons_of_mem p hq))
      (fun q hq => hlab q (List.mem_cons_of_mem p hq))
      (fun q hq => hch q (List.mem_cons_of_mem p hq))
      (cata ++ [p]) p.1 hnotin2]
    simp

/-- CLAIM C1, counterexample: the catalog [("A", [("a,b", "u")])] has no empty
category and no newline of either kind embedded in its label or in any channel
name or url, yet serializing it and re-parsing the written text yields
[("A", [("a", "b,u")])], not the original: the comma inside the channel name
is re-split at the first comma. -/
theorem C1_counterexample :
    (∀ p ∈ ([("A".data, [Channel.mk "a,b".data "u".data])] : Catalog),
      p.2 ≠ [] ∧ ('\n' ∉ p.1 ∧ '\r' ∉ p.1) ∧ ∀ ch ∈ p.2,
        ('\n' ∉ ch.name ∧ '\r' ∉ ch.name) ∧ ('\n' ∉ ch.url ∧ '\r' ∉ ch.url)) ∧
    read_result_file (some (save_channels_to_file
        [("A".data, [Channel.mk "a,b".data "u".data])]))
      ≠ [("A".data, [Channel.mk "a,b".data "u".data])] := by decide

/-- CLAIM C1, amended: serializing and re-parsing restores the catalog exactly
for every catalog whose category labels are pairwise distinct, with no empty
category, whose labels contain no newline and no carriage return, do not start
with whitespace (any character that Python str.strip removes) and do not
contain ",#genre#", whose channel names and urls contain no newline and no
carriage return, and whose channels have a comma-free name that does not start
with whitespace, a url that does not end with whitespace, and a "name,url"
line that does not end with ",#genre#". -/
theorem C1_roundtrip (c : Catalog)
    (hkeys : (keysOf c).Nodup)
    (hne : ∀ p ∈ c, p.2 ≠ [])
    (hlab : ∀ p ∈ c, ('\n' ∉ p.1 ∧ '\r' ∉ p.1) ∧ noLeadWs p.1 = true ∧
      containsSub genreMark p.1 = false)
    (hnl : ∀ p ∈ c, ∀ ch ∈ p.2, ('\n' ∉ ch.name ∧ '\r' ∉ ch.name) ∧
      ('\n' ∉ ch.url ∧ '\r' ∉ ch.url))
    (hch : ∀ p ∈ c, ∀ ch ∈ p.2, noLeadWs ch.name = true ∧ noTrailWs ch.url = true ∧
      ',' ∉ ch.name ∧ endsWithL genreMark (chLine ch) = false) :
    read_result_file (some (save_channels_to_file c)) = c := by
  rw [show read_result_file (some (save_channels_to_file c))
      = parseLines (splitLines (save_channels_to_file c)) from rfl]
  rw [save_channels_eq]
  rw [List.filter_eq_self.mpr (fun p hp => by simpa using hne p hp)]
  cases c with
  | nil => rfl
  | cons p rest =>
    rw [List.map_cons]
    rw [show joinSep (blockOf p :: rest.map blockOf)
        = blockOf p ++ ((rest.map blockOf).map (fun b => '\n' :: b)).flatten from rfl]
    rw [splitLines_blockOf p (hlab p (List.mem_cons_self p rest)).1.1
      (hlab p (List.mem_cons_self p rest)).1.2 (hnl p (List.mem_cons_self p rest))]
    rw [splitLines_sepBlocks rest (fun q hq => (hlab q (List.mem_cons_of_mem p hq)).1)
      (fun q hq => hnl q (List.mem_cons_of_mem p hq))]
    unfold parseLines
    have hskip : List.foldl parseLine (([], []) : Catalog × List Char) (restLinesFor (p :: rest))
        = List.foldl parseLine (([], []) : Catalog × List Char)
          ((p.1 ++ genreMark) :: (p.2.map chLine ++ restLinesFor rest)) := by
      rw [show restLinesFor (p :: rest)
          = [] :: (p.1 ++ genreMark) :: (p.2.map chLine ++ restLinesFor rest) from rfl]
      rw [List.foldl_cons, parseLine_blank (by rfl : strip ([] : List Char) = [])]
    rw [← hskip]
    rw [parse_restLines (p :: rest) hkeys hne
      (fun q hq => ⟨(hlab q hq).2.1, (hlab q hq).2.2⟩) hch ([] : Catalog) []
      (fun q _ => by simp [keysOf])]
    simp

/-- Witness for C1_roundtrip at a concrete one-category catalog. -/
theorem C1_roundtrip_witness :
    read_result_file (some (save_channels_to_file
        [("News".data, [Channel.mk "CCTV1".data "http://x/y".data])]))
      = [("News".data, [Channel.mk "CCTV1".data "http://x/y".data])] :=
  C1_roundtrip [("News".data, [Channel.mk "CCTV1".data "http://x/y".data])]
    (by decide) (by decide) (by decide) (by decide) (by decide)

end SaveIPv6
